import Mathlib

/-!
# Verification of the go-rag document-processing core

Shallow embedding of the document-processing pipeline of the `go-rag`
repository (package `embed`: chunker, diff engine, embedding worker pool,
store synchronizer, `DeleteDocumentVectors`), together with proofs about
the embedded definitions.

Go strings are modelled as `List Char`; Go maps as association lists
(iteration order of a Go map is unspecified, the association-list order
stands for one arbitrary iteration order); the external SHA-256 digest
(`getContentHash`), the external embedding RPC and the external stores are
parameters/oracles of the embedded functions.
-/

namespace GoRag

/-- Go strings, modelled as lists of characters. -/
abbrev Str := List Char

/-- Models Go `unicode.IsSpace` (restricted to the Latin-1 range that the
    Go implementation special-cases; higher Unicode White_Space code points
    behave as non-space in this embedding). -/
def goIsSpace (c : Char) : Bool :=
  c = ' ' || c = '\t' || c = '\n' || c = (Char.ofNat 11) || c = (Char.ofNat 12) ||
  c = '\r' || c = (Char.ofNat 0x85) || c = (Char.ofNat 0xA0)

/-- Models Go `strings.TrimSpace`: drop leading and trailing whitespace. -/
def trimSpace (s : Str) : Str :=
  ((s.dropWhile goIsSpace).reverse.dropWhile goIsSpace).reverse

/-- Fuel-indexed splitter: peels one maximal whitespace-free word per step.
    The fuel (any bound on the string length) makes the recursion structural. -/
def fieldsFuel : Nat → Str → List Str
  | _, [] => []
  | 0, _ :: _ => []
  | fuel + 1, c :: cs =>
    if goIsSpace c then fieldsFuel fuel cs
    else (c :: cs.takeWhile (fun d => !goIsSpace d)) ::
         fieldsFuel fuel (cs.dropWhile (fun d => !goIsSpace d))

/-- Models Go `strings.Fields`: split around runs of whitespace,
    returning the maximal whitespace-free non-empty words in order. -/
def fields (s : Str) : List Str := fieldsFuel s.length s

theorem fieldsFuel_nil (fuel : Nat) : fieldsFuel fuel [] = [] := by
  cases fuel <;> rfl

theorem fieldsFuel_congr :
    ∀ (fuel fuel2 : Nat) (s : Str), s.length ≤ fuel → s.length ≤ fuel2 →
      fieldsFuel fuel s = fieldsFuel fuel2 s := by
  intro fuel
  induction fuel with
  | zero =>
    intro fuel2 s h1 _
    have hs : s = [] := List.length_eq_zero.mp (Nat.le_zero.mp h1)
    subst hs
    rw [fieldsFuel_nil, fieldsFuel_nil]
  | succ fuel ih =>
    intro fuel2 s h1 h2
    cases s with
    | nil => rw [fieldsFuel_nil, fieldsFuel_nil]
    | cons c cs =>
      cases fuel2 with
      | zero => simp at h2
      | succ fuel2 =>
        have hcs : cs.length ≤ fuel := by
          simp only [List.length_cons] at h1; omega
        have hcs2 : cs.length ≤ fuel2 := by
          simp only [List.length_cons] at h2; omega
        have hdw : (cs.dropWhile (fun d => !goIsSpace d)).length ≤ cs.length :=
          (List.dropWhile_sublist _).length_le
        show (if goIsSpace c then fieldsFuel fuel cs
            else (c :: cs.takeWhile (fun d => !goIsSpace d)) ::
              fieldsFuel fuel (cs.dropWhile (fun d => !goIsSpace d))) =
          (if goIsSpace c then fieldsFuel fuel2 cs
            else (c :: cs.takeWhile (fun d => !goIsSpace d)) ::
              fieldsFuel fuel2 (cs.dropWhile (fun d => !goIsSpace d)))
        by_cases hc : goIsSpace c
        · rw [if_pos hc, if_pos hc, ih fuel2 cs hcs hcs2]
        · rw [if_neg hc, if_neg hc,
            ih fuel2 (cs.dropWhile (fun d => !goIsSpace d))
              (le_trans hdw hcs) (le_trans hdw hcs2)]

theorem fieldsFuel_eq (fuel : Nat) (s : Str) (h : s.length ≤ fuel) :
    fieldsFuel fuel s = fieldsFuel s.length s :=
  fieldsFuel_congr fuel s.length s h le_rfl

@[simp] theorem fields_nil : fields [] = [] := rfl

theorem fields_cons_space {c : Char} (cs : Str) (h : goIsSpace c) :
    fields (c :: cs) = fields cs := by
  show fieldsFuel (c :: cs).length (c :: cs) = fields cs
  rw [List.length_cons]
  show (if goIsSpace c then fieldsFuel cs.length cs
      else (c :: cs.takeWhile (fun d => !goIsSpace d)) ::
        fieldsFuel cs.length (cs.dropWhile (fun d => !goIsSpace d))) = fields cs
  rw [if_pos h]
  rfl

theorem fields_cons_nonspace {c : Char} (cs : Str) (h : ¬ goIsSpace c) :
    fields (c :: cs) =
      (c :: cs.takeWhile (fun d => !goIsSpace d)) ::
        fields (cs.dropWhile (fun d => !goIsSpace d)) := by
  show fieldsFuel (c :: cs).length (c :: cs) = _
  rw [List.length_cons]
  show (if goIsSpace c then fieldsFuel cs.length cs
      else (c :: cs.takeWhile (fun d => !goIsSpace d)) ::
        fieldsFuel cs.length (cs.dropWhile (fun d => !goIsSpace d))) = _
  rw [if_neg h, fieldsFuel_eq cs.length (cs.dropWhile (fun d => !goIsSpace d))
    (List.dropWhile_sublist _).length_le]
  rfl

/-! ## Chunker (embed/chunker.go): data model and definitions -/

/-- Go constant `maxWordsPerChunk`: target maximum words per chunk. -/
def maxWordsPerChunk : Nat := 256

/-- Go constant `headingLevelToSplit`: markdown heading level that splits sections. -/
def headingLevelToSplit : Nat := 2

/-- Separator of `strings.Join(headings, " > ")` in the chunk metadata. -/
def headingSep : Str := [' ', '>', ' ']

/-- Models `strings.Join` / the word-joining shape of the chunk builder. -/
def joinWith (sep : Str) : List Str → Str
  | [] => []
  | [w] => w
  | w :: ws => w ++ sep ++ joinWith sep ws

/-- The builder contents after writing each word of `g` followed by one space
    (the `buf.WriteString(word); buf.WriteString(" ")` loop). -/
def flattenBuf (g : List Str) : Str :=
  (g.map (fun w => w ++ [' '])).flatten

/-- Models `embed.Chunk`: content, content hash, and the `headings` metadata
    entry (`none` models the absent/nil metadata map of code chunks).
    The SHA-256 digest `getContentHash` is an external crypto primitive and is
    a parameter `hash` of the chunking functions. -/
structure Chunk where
  content : Str
  contentHash : Str
  headings : Option Str
  deriving DecidableEq, Repr

/-- The word-packing loop of `splitSectionByWords` (the `else` branch):
    append each word plus a space to the builder, bump the running count,
    flush a chunk whenever the count reaches `maxWordsPerChunk`, and flush a
    final chunk if the builder is non-empty afterwards. -/
def splitLoop (hash : Str → Str) (meta : Option Str) : List Str → Str → Nat → List Chunk
  | [], buf, _ =>
    if buf.length > 0 then [⟨trimSpace buf, hash (trimSpace buf), meta⟩] else []
  | w :: ws, buf, cnt =>
    let buf1 := buf ++ w ++ [' ']
    if cnt + 1 ≥ maxWordsPerChunk then
      ⟨trimSpace buf1, hash (trimSpace buf1), meta⟩ :: splitLoop hash meta ws [] 0
    else
      splitLoop hash meta ws buf1 (cnt + 1)

/-- Models `splitSectionByWords` (part_012 lines 69-113): zero chunks for a
    wordless section; one chunk for a section of at most `maxWordsPerChunk`
    words; otherwise the greedy word-packing loop. -/
def splitSectionByWords (hash : Str → Str) (sec : Str) (headings : List Str) : List Chunk :=
  let words := fields sec
  if words.length = 0 then []
  else if words.length ≤ maxWordsPerChunk then
    [⟨trimSpace sec, hash (trimSpace sec), some (joinWith headingSep headings)⟩]
  else
    splitLoop hash (some (joinWith headingSep headings)) words [] 0

/-- Models `chunkCodeFile`: the whole trimmed content as a single chunk. -/
def chunkCodeFile (hash : Str → Str) (content : Str) : List Chunk :=
  [⟨trimSpace content, hash (trimSpace content), none⟩]

/-- One top-level block of the parsed markdown document, as `ChunkMarkdown`
    consumes it. The goldmark parser is external; a block is abstracted to
    whether it is a heading of level `headingLevelToSplit` (with its text) and
    its raw source span (`none` models `node.Lines()` nil or empty, which the
    loop skips). -/
structure Block where
  heading2 : Option Str
  src : Option Str

/-- Appending one block's raw source plus a double newline to the buffer
    (skipped entirely when the block has no source span). -/
def appendBlock (buf : Str) (b : Block) : Str :=
  match b.src with
  | none => buf
  | some s => buf ++ s ++ ['\n', '\n']

/-- The block iteration of `ChunkMarkdown`: on a split-level heading, flush a
    non-empty buffer as a section, reset the buffer and the heading context;
    every block then contributes its raw source to the buffer; the final
    non-empty buffer is flushed as the last section. -/
def chunkMarkdownLoop (hash : Str → Str) : List Block → List Str → Str → List Chunk
  | [], headings, buf =>
    if buf.length > 0 then splitSectionByWords hash buf headings else []
  | b :: bs, headings, buf =>
    match b.heading2 with
    | some t =>
      (if buf.length > 0 then splitSectionByWords hash buf headings else []) ++
        chunkMarkdownLoop hash bs [t] (appendBlock [] b)
    | none =>
      chunkMarkdownLoop hash bs headings (appendBlock buf b)

/-- Models `ChunkMarkdown` over the parsed top-level block sequence. -/
def chunkMarkdown (hash : Str → Str) (blocks : List Block) : List Chunk :=
  chunkMarkdownLoop hash blocks [] []

/-- Specification-side greedy grouping of a word list into runs of
    `maxWordsPerChunk`: what the word-packing loop emits, described by
    `take`/`drop`. -/
def groupWords (ws : List Str) : List (List Str) :=
  if ws.length = 0 then []
  else ws.take maxWordsPerChunk :: groupWords (ws.drop maxWordsPerChunk)
termination_by ws.length
decreasing_by
  have h256 : maxWordsPerChunk = 256 := rfl
  simp only [List.length_drop]
  omega

/-- Specification-side intermediate: the packing loop with a partially filled
    buffer already holding the words `g0`. -/
def greedyGroups : List Str → List Str → List (List Str)
  | g0, [] => if g0.length = 0 then [] else [g0]
  | g0, w :: ws =>
    if g0.length + 1 ≥ maxWordsPerChunk then (g0 ++ [w]) :: greedyGroups [] ws
    else greedyGroups (g0 ++ [w]) ws

/-- The chunk the packing loop emits for one word group. -/
def chunkOfGroup (hash : Str → Str) (meta : Option Str) (g : List Str) : Chunk :=
  ⟨trimSpace (flattenBuf g), hash (trimSpace (flattenBuf g)), meta⟩

/-! ## Diff engine and relational data model (services/embed/service.go) -/

/-- Models the relational `ent.Chunk` row: generated identifier, ordinal
    index, content and content hash (schema `ent/schema/chunk.go`). -/
structure EntChunk where
  id : Nat
  index : Nat
  content : Str
  contentHash : Str
  deriving DecidableEq, Repr

/-- A Go `map[string]*ent.Chunk`, as an association list with unique keys by
    construction; the list order stands for one arbitrary iteration order. -/
abbrev ExistingMap := List (Str × EntChunk)

/-- Go map assignment `m[k] = v`: the new binding replaces any previous one. -/
def mapInsert (m : ExistingMap) (k : Str) (v : EntChunk) : ExistingMap :=
  (k, v) :: m.filter (fun p => !(p.1 == k))

/-- Go map read `m[k]` with its `exists` flag collapsed into an `Option`. -/
def mapLookup (m : ExistingMap) (k : Str) : Option EntChunk :=
  (m.find? (fun p => p.1 == k)).map (fun p => p.2)

/-- Go `delete(m, k)`. -/
def mapDelete (m : ExistingMap) (k : Str) : ExistingMap :=
  m.filter (fun p => !(p.1 == k))

/-- Builds `existingChunks`: the prior rows indexed by content hash
    (`for _, c := range doc.Edges.Chunks { existingChunks[c.ContentHash] = c }`). -/
def buildExisting (rows : List EntChunk) : ExistingMap :=
  rows.foldl (fun m c => mapInsert m c.contentHash c) []

/-- The diff loop of `ProcessDocument` (lines 84-92): a new chunk whose hash
    is found in the prior map removes that hash from the deletion map, any
    other new chunk is appended to the to-embed list. The membership test is
    always against the full prior map, never the shrinking deletion map. -/
def diffLoop (existing : ExistingMap) :
    List Chunk → List Chunk → ExistingMap → List Chunk × ExistingMap
  | [], toEmbed, toDelete => (toEmbed, toDelete)
  | nc :: rest, toEmbed, toDelete =>
    if (mapLookup existing nc.contentHash).isSome then
      diffLoop existing rest toEmbed (mapDelete toDelete nc.contentHash)
    else
      diffLoop existing rest (toEmbed ++ [nc]) toDelete

/-- The diff engine: seed the deletion map with every prior chunk, then run
    the loop over the new chunk sequence; yields (to-embed, to-delete). -/
def computeDiff (existing : ExistingMap) (newChunks : List Chunk) :
    List Chunk × ExistingMap :=
  diffLoop existing newChunks [] existing

/-! ## Embedding worker pool -/

/-- An embedding vector (`[]float32`). The core never inspects the numeric
    contents, it only moves vectors between the embedding call and the vector
    store, so the float payload is modelled as opaque integer data. -/
abbrev Vec := List Int

/-- Models `embeddingResult`: original job index, vector, error. -/
structure EmbeddingResult where
  index : Nat
  vector : Vec
  err : Option Str
  deriving DecidableEq, Repr

/-- What one worker sends for job `(i, c)`: the external `GetEmbedding` call
    either yields a vector, or fails with the response left nil (so the
    result's vector is nil = `[]`). -/
def workerResult (embedFn : Str → Except Str Vec) (i : Nat) (c : Chunk) : EmbeddingResult :=
  match embedFn c.content with
  | .ok v => ⟨i, v, none⟩
  | .error e => ⟨i, [], some e⟩

/-- The results produced for the jobs of `chunks`, tagged with their ordinal
    indices starting at `i` (`for i, chunk := range chunks { jobs <- ... }`). -/
def jobResultsFrom (embedFn : Str → Except Str Vec) : Nat → List Chunk → List EmbeddingResult
  | _, [] => []
  | i, c :: cs => workerResult embedFn i c :: jobResultsFrom embedFn (i + 1) cs

/-- The complete multiset of worker results for an input batch. Workers may
    deliver them to the results channel in any order. -/
def jobResults (embedFn : Str → Except Str Vec) (chunks : List Chunk) : List EmbeddingResult :=
  jobResultsFrom embedFn 0 chunks

/-- The collection loop of `embedChunks`: drain the results channel in
    arrival order; fail the whole batch at the first error, otherwise write
    each vector into the slot of its original index. -/
def collectLoop : List EmbeddingResult → List Vec → Except Str (List Vec)
  | [], acc => .ok acc
  | r :: rs, acc =>
    match r.err with
    | some e => .error e
    | none => collectLoop rs (acc.set r.index r.vector)

/-- Models `embedChunks`: zero jobs yield nil vectors and no error; otherwise
    the results (whose arrival order is the nondeterministic parameter
    `arrival`) are reassembled into `make([][]float32, numJobs)` by index. -/
def embedChunks (embedFn : Str → Except Str Vec) (chunks : List Chunk)
    (arrival : List EmbeddingResult) : Except Str (List Vec) :=
  if chunks.length = 0 then .ok []
  else collectLoop arrival (List.replicate chunks.length [])

/-! ## Store synchronizer -/

/-- A vector-index point: id (= the chunk's generated relational id), vector,
    and the payload attribution fields. -/
structure QPoint where
  id : Nat
  vector : Vec
  userId : Str
  projectId : Int
  documentId : Int
  chunkId : Nat
  deriving DecidableEq, Repr

/-- The two stores for one document: its relational chunk rows, the row id
    generator, its status, and the vector-index points of the collection. -/
structure DBState where
  rows : List EntChunk
  nextId : Nat
  status : Str
  points : List QPoint
  deriving DecidableEq, Repr

/-- Attribution of the document: its id, its project's id and the project
    owner's id (a uuid string). -/
structure DocMeta where
  docId : Int
  projectId : Int
  ownerId : Str
  deriving DecidableEq, Repr

/-- The failure sites of `syncDatabase`. -/
inductive SyncStep
  | qdrantDelete | txBegin | pgDelete | pgInsert | qdrantUpsert | commitTx
  deriving DecidableEq, Repr

/-- Failure oracle for the external calls made by one `syncDatabase` run:
    whether each store operation succeeds (the `i`-th row insert has its own
    flag). -/
structure SyncEnv where
  qdrantDeleteOk : Bool
  txBeginOk : Bool
  pgDeleteOk : Bool
  insertOk : Nat → Bool
  upsertOk : Bool
  commitOk : Bool

/-- The chunk row inserted for the `i`-th to-embed chunk: `SetIndex(i)` with
    the content, the content hash and a database-generated identifier. -/
def mkRow (nid : Nat) (i : Nat) (c : Chunk) : EntChunk :=
  ⟨nid + i, i, c.content, c.contentHash⟩

/-- The vector point prepared for the `i`-th inserted chunk: keyed by the
    generated chunk id, carrying `newVectors[i]` and the rich payload. -/
def mkPoint (meta : DocMeta) (nid : Nat) (vecs : List Vec) (i : Nat) : QPoint :=
  ⟨nid + i, vecs.getD i [], meta.ownerId, meta.projectId, meta.docId, nid + i⟩

/-- The insert loop of `syncDatabase` (lines 231-254) inside the transaction:
    create a row per to-embed chunk and prepare its point; the first failing
    insert aborts. Returns the created rows and prepared points. -/
def insertLoop (env : SyncEnv) (meta : DocMeta) (nid : Nat) (vecs : List Vec) :
    Nat → List Chunk → Option (List EntChunk × List QPoint)
  | _, [] => some ([], [])
  | i, c :: cs =>
    if env.insertOk i then
      match insertLoop env meta nid vecs (i + 1) cs with
      | some (rs, ps) => some (mkRow nid i c :: rs, mkPoint meta nid vecs i :: ps)
      | none => none
    else none

/-- Models `syncDatabase`: delete stale points from the vector index, then in
    one relational transaction delete stale rows and insert the new rows,
    upsert the new points, and commit. Any failure rolls the transaction back
    (the returned rows are the pre-call rows) and returns the failing step.
    Vector-index effects that already happened stay (they are outside the
    transaction). -/
def syncDatabase (env : SyncEnv) (st : DBState) (meta : DocMeta)
    (newChunks : List Chunk) (newVectors : List Vec) (chunksToDelete : ExistingMap) :
    DBState × Option SyncStep :=
  let delIds := chunksToDelete.map (fun p => p.2.id)
  if chunksToDelete.length > 0 ∧ env.qdrantDeleteOk = false then
    (st, some .qdrantDelete)
  else
    let points1 :=
      if chunksToDelete.length > 0 then st.points.filter (fun p => !(delIds.contains p.id))
      else st.points
    if env.txBeginOk = false then ({ st with points := points1 }, some .txBegin)
    else if delIds.length > 0 ∧ env.pgDeleteOk = false then
      ({ st with points := points1 }, some .pgDelete)
    else
      let txRows := st.rows.filter (fun r => !(delIds.contains r.id))
      match insertLoop env meta st.nextId newVectors 0 newChunks with
      | none => ({ st with points := points1 }, some .pgInsert)
      | some (ins, pts) =>
        if pts.length > 0 ∧ env.upsertOk = false then
          ({ st with points := points1 }, some .qdrantUpsert)
        else
          let points2 :=
            if pts.length > 0 then
              points1.filter (fun p => !((pts.map QPoint.id).contains p.id)) ++ pts
            else points1
          if env.commitOk = false then ({ st with points := points2 }, some .commitTx)
          else
            ({ rows := txRows ++ ins, nextId := st.nextId + newChunks.length,
               status := st.status, points := points2 }, none)

/-! ## ProcessDocument and DeleteDocumentVectors -/

/-- Document status literals written by the core. -/
def processingStatus : Str := "processing".data

/-- Terminal success status. -/
def completedStatus : Str := "completed".data

/-- Terminal failure status. -/
def failedStatus : Str := "failed".data

/-- Initial status a document is created with (schema default). -/
def uploadedStatus : Str := "uploaded".data

/-- The stages of `ProcessDocument` that can fail. -/
inductive Stage
  | fetch | embed | sync
  deriving DecidableEq, Repr

/-- Oracle for one `ProcessDocument` run: whether the initial document fetch
    succeeds, the external embedding function, the nondeterministic arrival
    order of the worker results, and the synchronizer's failure oracle. -/
structure ProcEnv where
  fetchOk : Bool
  embedFn : Str → Except Str Vec
  arrival : List EmbeddingResult
  syncEnv : SyncEnv

/-- Outcome of one `ProcessDocument` run: the final stores, the document
    status values written (in order), and the failing stage if any. -/
structure ProcResult where
  state : DBState
  writes : List Str
  failedStage : Option Stage
  deriving Repr

/-- Models `ProcessDocument` (service.go lines 39-126): fetch the document
    with its prior chunks (marking it failed on a fetch error), diff the
    freshly chunked sequence (`newChunks`, the chunker's output for the
    document content) against the prior chunk map, embed the to-embed chunks,
    sync both stores, and finalize the status. -/
def processDocument (env : ProcEnv) (st : DBState) (meta : DocMeta)
    (newChunks : List Chunk) : ProcResult :=
  if env.fetchOk = false then
    ⟨{ st with status := failedStatus }, [failedStatus], some .fetch⟩
  else
    let diff := computeDiff (buildExisting st.rows) newChunks
    let toEmbed := diff.1
    let toDelete := diff.2
    if toEmbed.length > 0 ∨ toDelete.length > 0 then
      match (if toEmbed.length > 0 then embedChunks env.embedFn toEmbed env.arrival
             else .ok []) with
      | .error _ => ⟨{ st with status := failedStatus }, [failedStatus], some .embed⟩
      | .ok vectors =>
        match syncDatabase env.syncEnv st meta toEmbed vectors toDelete with
        | (st1, some _) => ⟨{ st1 with status := failedStatus }, [failedStatus], some .sync⟩
        | (st1, none) => ⟨{ st1 with status := completedStatus }, [completedStatus], none⟩
    else
      ⟨{ st with status := completedStatus }, [completedStatus], none⟩

/-- Models `DeleteDocumentVectors`: query the document's chunk ids (first
    argument is that query's outcome); with zero chunks succeed without any
    vector-store call; otherwise issue one point-delete call for the ids.
    Returns the list of issued vector-store delete calls and the error. -/
def deleteDocumentVectors (chunkIdsResult : Except Str (List Nat))
    (qdrantDeleteOk : Bool) : List (List Nat) × Option Str :=
  match chunkIdsResult with
  | .error e => ([], some ("failed to query chunk IDs for document: ".data ++ e))
  | .ok chunkIds =>
    if chunkIds.length = 0 then ([], none)
    else if qdrantDeleteOk then ([chunkIds], none)
    else ([chunkIds], some "failed to delete points from qdrant".data)

/-! ## Lemmas about `fields` -/

/-- Every word produced by `fields` is non-empty and whitespace-free. -/
theorem fields_sound {s : Str} {w : Str} (hw : w ∈ fields s) :
    w ≠ [] ∧ ∀ c ∈ w, ¬ goIsSpace c := by
  suffices H : ∀ (n : Nat) (s : Str), s.length ≤ n → ∀ w ∈ fields s,
      w ≠ [] ∧ ∀ c ∈ w, ¬ goIsSpace c from
    H s.length s le_rfl w hw
  intro n
  induction n with
  | zero =>
    intro s hle w hw
    have hs : s = [] := List.length_eq_zero.mp (Nat.le_zero.mp hle)
    subst hs
    simp at hw
  | succ n ih =>
    intro s hle w hw
    cases s with
    | nil => simp at hw
    | cons c cs =>
      have hcs : cs.length ≤ n := by
        simp only [List.length_cons] at hle; omega
      by_cases hc : goIsSpace c
      · rw [fields_cons_space cs hc] at hw
        exact ih cs hcs w hw
      · rw [fields_cons_nonspace cs hc] at hw
        rcases List.mem_cons.mp hw with h | h
        · subst h
          refine ⟨by simp, ?_⟩
          intro d hd
          rcases List.mem_cons.mp hd with h | h
          · subst h; exact hc
          · have := List.mem_takeWhile_imp h
            simpa using this
        · exact ih (cs.dropWhile (fun d => !goIsSpace d))
            (le_trans (List.dropWhile_sublist _).length_le hcs) w h

theorem takeWhile_append_allfail {p : Char → Bool} {sp : Str}
    (h : ∀ a ∈ sp, p a = false) (l : Str) :
    (l ++ sp).takeWhile p = l.takeWhile p := by
  induction l with
  | nil =>
    simp only [List.nil_append, List.takeWhile_nil]
    cases sp with
    | nil => rfl
    | cons a as =>
      have ha := h a (List.mem_cons_self a as)
      simp [List.takeWhile_cons, ha]
  | cons c cs ih =>
    simp only [List.cons_append, List.takeWhile_cons]
    cases hp : p c <;> simp [ih]

theorem dropWhile_append_allfail {p : Char → Bool} {sp : Str}
    (h : ∀ a ∈ sp, p a = false) (l : Str) :
    (l ++ sp).dropWhile p = l.dropWhile p ++ sp := by
  induction l with
  | nil =>
    simp only [List.nil_append, List.dropWhile_nil]
    cases sp with
    | nil => rfl
    | cons a as =>
      have ha := h a (List.mem_cons_self a as)
      simp [List.dropWhile_cons, ha]
  | cons c cs ih =>
    simp only [List.cons_append, List.dropWhile_cons]
    cases hp : p c <;> simp [ih]

theorem fields_allSpace {s : Str} (h : ∀ c ∈ s, goIsSpace c) : fields s = [] := by
  induction s with
  | nil => simp
  | cons c cs ih =>
    rw [fields_cons_space cs (h c (List.mem_cons_self c cs))]
    exact ih (fun d hd => h d (List.mem_cons_of_mem c hd))

theorem fields_append_spaces {sp : Str} (hsp : ∀ c ∈ sp, goIsSpace c) (y : Str) :
    fields (y ++ sp) = fields y := by
  suffices H : ∀ (n : Nat) (y : Str), y.length ≤ n →
      fields (y ++ sp) = fields y from
    H y.length y le_rfl
  intro n
  induction n with
  | zero =>
    intro y hle
    have hy : y = [] := List.length_eq_zero.mp (Nat.le_zero.mp hle)
    subst hy
    simpa using fields_allSpace hsp
  | succ n ih =>
    intro y hle
    cases y with
    | nil => simpa using fields_allSpace hsp
    | cons c cs =>
      have hcs : cs.length ≤ n := by
        simp only [List.length_cons] at hle; omega
      by_cases hc : goIsSpace c
      · rw [List.cons_append, fields_cons_space _ hc, fields_cons_space _ hc]
        exact ih cs hcs
      · have hfail : ∀ a ∈ sp, (fun d => !goIsSpace d) a = false := by
          intro a ha; simp [hsp a ha]
        rw [List.cons_append, fields_cons_nonspace _ hc, fields_cons_nonspace _ hc,
          takeWhile_append_allfail hfail, dropWhile_append_allfail hfail]
        rw [ih (cs.dropWhile (fun d => !goIsSpace d))
          (le_trans (List.dropWhile_sublist _).length_le hcs)]

theorem fields_dropWhile_spaces (s : Str) :
    fields (s.dropWhile goIsSpace) = fields s := by
  induction s with
  | nil => simp
  | cons c cs ih =>
    by_cases hc : goIsSpace c
    · rw [List.dropWhile_cons_of_pos hc, fields_cons_space cs hc]
      exact ih
    · rw [List.dropWhile_cons_of_neg hc]

theorem fields_trimSpace (s : Str) : fields (trimSpace s) = fields s := by
  unfold trimSpace
  set t := s.dropWhile goIsSpace with ht
  have hdecomp : t = (t.reverse.dropWhile goIsSpace).reverse ++
      (t.reverse.takeWhile goIsSpace).reverse := by
    conv_lhs => rw [← List.reverse_reverse t]
    rw [← List.reverse_append, List.takeWhile_append_dropWhile]
  have hsp : ∀ c ∈ (t.reverse.takeWhile goIsSpace).reverse, goIsSpace c := by
    intro c hc
    exact List.mem_takeWhile_imp (List.mem_reverse.mp hc)
  calc fields (t.reverse.dropWhile goIsSpace).reverse
      = fields ((t.reverse.dropWhile goIsSpace).reverse ++
          (t.reverse.takeWhile goIsSpace).reverse) :=
        (fields_append_spaces hsp _).symm
    _ = fields t := by rw [← hdecomp]
    _ = fields s := fields_dropWhile_spaces s

theorem trimSpace_ne_nil_of_fields {s : Str} (h : fields s ≠ []) :
    trimSpace s ≠ [] := by
  intro heq
  apply h
  rw [← fields_trimSpace s, heq, fields_nil]

/-! ## Lemmas about the chunker -/

theorem flattenBuf_nil : flattenBuf [] = [] := rfl

theorem flattenBuf_cons (w : Str) (g : List Str) :
    flattenBuf (w :: g) = w ++ [' '] ++ flattenBuf g := by
  simp [flattenBuf]

theorem flattenBuf_append_one (g : List Str) (w : Str) :
    flattenBuf (g ++ [w]) = flattenBuf g ++ (w ++ [' ']) := by
  simp [flattenBuf]

theorem flattenBuf_ne_nil {g : List Str} (hg : g ≠ []) : flattenBuf g ≠ [] := by
  cases g with
  | nil => exact absurd rfl hg
  | cons w g => rw [flattenBuf_cons]; simp

theorem flattenBuf_eq_joinWith {g : List Str} (hg : g ≠ []) :
    flattenBuf g = joinWith [' '] g ++ [' '] := by
  induction g with
  | nil => exact absurd rfl hg
  | cons w g ih =>
    cases g with
    | nil => simp [flattenBuf, joinWith]
    | cons x g2 =>
      rw [flattenBuf_cons, ih (by simp)]
      show w ++ [' '] ++ (joinWith [' '] (x :: g2) ++ [' ']) =
        w ++ [' '] ++ joinWith [' '] (x :: g2) ++ [' ']
      simp [List.append_assoc]

theorem fields_word_append {w rest : Str} (hw : w ≠ [])
    (hwf : ∀ c ∈ w, ¬ goIsSpace c)
    (hstop : rest = [] ∨ ∃ d t, rest = d :: t ∧ goIsSpace d) :
    fields (w ++ rest) = w :: fields rest := by
  cases w with
  | nil => exact absurd rfl hw
  | cons c cr =>
    have hc : ¬ goIsSpace c := hwf c (List.mem_cons_self c cr)
    have hcr : ∀ a ∈ cr, (fun d => !goIsSpace d) a = true := by
      intro a ha; simp [hwf a (List.mem_cons_of_mem c ha)]
    rw [List.cons_append, fields_cons_nonspace _ hc,
      List.takeWhile_append_of_pos hcr, List.dropWhile_append_of_pos hcr]
    rcases hstop with h | ⟨d, t, hdt, hd⟩
    · subst h; simp
    · subst hdt
      rw [List.takeWhile_cons_of_neg (by simp [hd]),
        List.dropWhile_cons_of_neg (by simp [hd])]
      simp

theorem fields_joinWith {ws : List Str}
    (h : ∀ w ∈ ws, w ≠ [] ∧ ∀ c ∈ w, ¬ goIsSpace c) :
    fields (joinWith [' '] ws) = ws := by
  induction ws with
  | nil => simp [joinWith]
  | cons w ws ih =>
    obtain ⟨hw, hwf⟩ := h w (List.mem_cons_self w ws)
    cases ws with
    | nil =>
      show fields w = [w]
      have h1 : fields (w ++ []) = w :: fields [] :=
        fields_word_append hw hwf (Or.inl rfl)
      simpa using h1
    | cons x ws2 =>
      show fields (w ++ [' '] ++ joinWith [' '] (x :: ws2)) = w :: x :: ws2
      rw [List.append_assoc, List.singleton_append]
      rw [fields_word_append hw hwf
        (Or.inr ⟨' ', joinWith [' '] (x :: ws2), rfl, by decide⟩)]
      rw [fields_cons_space _ (by decide)]
      rw [ih (fun v hv => h v (List.mem_cons_of_mem w hv))]

theorem fields_chunkOfGroup (hash : Str → Str) (meta : Option Str)
    {g : List Str} (hg : g ≠ [])
    (hws : ∀ w ∈ g, w ≠ [] ∧ ∀ c ∈ w, ¬ goIsSpace c) :
    fields (chunkOfGroup hash meta g).content = g := by
  show fields (trimSpace (flattenBuf g)) = g
  rw [fields_trimSpace, flattenBuf_eq_joinWith hg,
    fields_append_spaces (by intro c hc; simp at hc; simp [hc, goIsSpace]) _,
    fields_joinWith hws]

theorem splitLoop_eq (hash : Str → Str) (meta : Option Str) (ws : List Str) :
    ∀ g0 : List Str,
      splitLoop hash meta ws (flattenBuf g0) g0.length =
        (greedyGroups g0 ws).map (chunkOfGroup hash meta) := by
  induction ws with
  | nil =>
    intro g0
    cases g0 with
    | nil => simp [splitLoop, greedyGroups, flattenBuf]
    | cons w g =>
      have hne : flattenBuf (w :: g) ≠ [] := flattenBuf_ne_nil (by simp)
      have hpos : (flattenBuf (w :: g)).length > 0 := List.length_pos.mpr hne
      simp only [splitLoop, greedyGroups, hpos, if_pos, List.length_cons]
      simp [chunkOfGroup, List.length_eq_zero]
  | cons w ws ih =>
    intro g0
    have hbuf : flattenBuf g0 ++ w ++ [' '] = flattenBuf (g0 ++ [w]) := by
      rw [flattenBuf_append_one, List.append_assoc]
    by_cases hcnt : g0.length + 1 ≥ maxWordsPerChunk
    · simp only [splitLoop, greedyGroups, hcnt, if_pos, List.map_cons]
      congr 1
      · simp [hbuf, chunkOfGroup]
      · have := ih []
        simpa [flattenBuf] using this
    · simp only [splitLoop, greedyGroups, hcnt, if_neg, not_false_iff]
      have hlen : g0.length + 1 = (g0 ++ [w]).length := by simp
      rw [hbuf, hlen, ih (g0 ++ [w])]

theorem greedyGroups_eq_groupWords {g0 ws : List Str}
    (h : g0.length < maxWordsPerChunk) :
    greedyGroups g0 ws = groupWords (g0 ++ ws) := by
  induction ws generalizing g0 with
  | nil =>
    rw [List.append_nil, groupWords]
    cases hg0 : g0.length with
    | zero => simp [greedyGroups, hg0, List.length_eq_zero.mp hg0]
    | succ n =>
      have h1 : ¬ (g0.length = 0) := by omega
      have hle : g0.length ≤ maxWordsPerChunk := Nat.le_of_lt h
      rw [List.take_of_length_le hle, List.drop_of_length_le hle]
      simp [greedyGroups, h1, groupWords]
  | cons w ws ih =>
    by_cases hcnt : g0.length + 1 ≥ maxWordsPerChunk
    · have hg0 : g0.length + 1 = maxWordsPerChunk := by omega
      have hfull : (g0 ++ [w]).length = maxWordsPerChunk := by
        simp [hg0]
      simp only [greedyGroups, hcnt, if_pos]
      have h0 : greedyGroups [] ws = groupWords ws := by
        have : ([] : List Str).length < maxWordsPerChunk := by
          show 0 < maxWordsPerChunk; decide
        simpa using ih this
      have hassoc : g0 ++ w :: ws = (g0 ++ [w]) ++ ws := by simp
      have hne : ¬ (((g0 ++ [w]) ++ ws).length = 0) := by
        simp [List.length_append, hg0]
      rw [h0, hassoc]
      conv_rhs => rw [groupWords]
      rw [if_neg hne, ← hfull, List.take_left, List.drop_left]
    · simp only [greedyGroups, hcnt, if_neg, not_false_iff]
      have hlen : (g0 ++ [w]).length < maxWordsPerChunk := by
        simp only [List.length_append, List.length_cons, List.length_nil]
        omega
      rw [ih hlen]
      simp

theorem groupWords_mem {ws g : List Str} (hg : g ∈ groupWords ws) :
    g ≠ [] ∧ g.length ≤ maxWordsPerChunk ∧ ∀ w ∈ g, w ∈ ws := by
  induction ws using groupWords.induct with
  | case1 ws h =>
    rw [groupWords, if_pos h] at hg
    simp at hg
  | case2 ws h ih =>
    rw [groupWords, if_neg h] at hg
    rcases List.mem_cons.mp hg with h1 | h1
    · subst h1
      refine ⟨?_, ?_, ?_⟩
      · have hlp : 0 < ws.length := by omega
        have : 0 < (ws.take maxWordsPerChunk).length := by
          rw [List.length_take]
          have : 0 < maxWordsPerChunk := by decide
          omega
        exact List.ne_nil_of_length_pos this
      · rw [List.length_take]; omega
      · intro w hw; exact List.take_subset _ _ hw
    · obtain ⟨h1, h2, h3⟩ := ih h1
      exact ⟨h1, h2, fun w hw => List.drop_subset _ _ (h3 w hw)⟩

theorem groupWords_flatten (ws : List Str) : (groupWords ws).flatten = ws := by
  induction ws using groupWords.induct with
  | case1 ws h =>
    rw [groupWords, if_pos h]
    simp [List.length_eq_zero.mp h]
  | case2 ws h ih =>
    rw [groupWords, if_neg h]
    simp [ih, List.take_append_drop]

theorem splitSectionByWords_small (hash : Str → Str) (hs : List Str) (sec : Str)
    (h0 : (fields sec).length ≠ 0) (hle : (fields sec).length ≤ maxWordsPerChunk) :
    splitSectionByWords hash sec hs =
      [⟨trimSpace sec, hash (trimSpace sec), some (joinWith headingSep hs)⟩] := by
  simp [splitSectionByWords, h0, hle]

theorem splitSectionByWords_large (hash : Str → Str) (hs : List Str) (sec : Str)
    (hgt : (fields sec).length > maxWordsPerChunk) :
    splitSectionByWords hash sec hs =
      (groupWords (fields sec)).map
        (chunkOfGroup hash (some (joinWith headingSep hs))) := by
  have h0 : ¬ ((fields sec).length = 0) := by omega
  have hnle : ¬ ((fields sec).length ≤ maxWordsPerChunk) := by omega
  simp only [splitSectionByWords, h0, hnle, if_neg, if_false, ite_false]
  have h1 := splitLoop_eq hash (some (joinWith headingSep hs)) (fields sec) []
  have h2 : greedyGroups [] (fields sec) = groupWords (fields sec) := by
    have : ([] : List Str).length < maxWordsPerChunk := by decide
    simpa using greedyGroups_eq_groupWords this
  simpa [flattenBuf, h2] using h1

theorem fields_mem_splitSection {hash : Str → Str} {hs : List Str} {sec : Str}
    {c : Chunk} (hc : c ∈ splitSectionByWords hash sec hs) :
    fields c.content ≠ [] ∧ (fields c.content).length ≤ maxWordsPerChunk := by
  by_cases h0 : (fields sec).length = 0
  · rw [splitSectionByWords] at hc
    simp [h0] at hc
  by_cases hle : (fields sec).length ≤ maxWordsPerChunk
  · rw [splitSectionByWords_small hash hs sec h0 hle] at hc
    simp only [List.mem_singleton] at hc
    subst hc
    show fields (trimSpace sec) ≠ [] ∧ (fields (trimSpace sec)).length ≤ maxWordsPerChunk
    rw [fields_trimSpace]
    exact ⟨fun h => h0 (by rw [h]; rfl), hle⟩
  · rw [splitSectionByWords_large hash hs sec (by omega)] at hc
    obtain ⟨g, hgmem, hgc⟩ := List.mem_map.mp hc
    obtain ⟨hgne, hglen, hgsub⟩ := groupWords_mem hgmem
    have hwords : ∀ w ∈ g, w ≠ [] ∧ ∀ d ∈ w, ¬ goIsSpace d := by
      intro w hw
      exact fields_sound (hgsub w hw)
    rw [← hgc, fields_chunkOfGroup _ _ hgne hwords]
    exact ⟨hgne, hglen⟩

/-! ## Lemmas about the diff engine -/

theorem perm_any {α : Type} {l l2 : List α} {f : α → Bool} (h : l.Perm l2) :
    l.any f = l2.any f := by
  cases hb : l2.any f
  · cases hb2 : l.any f
    · rfl
    · obtain ⟨x, hx, hfx⟩ := List.any_eq_true.mp hb2
      have : l2.any f = true := List.any_eq_true.mpr ⟨x, h.mem_iff.mp hx, hfx⟩
      rw [this] at hb; exact hb
  · obtain ⟨x, hx, hfx⟩ := List.any_eq_true.mp hb
    exact List.any_eq_true.mpr ⟨x, h.mem_iff.mpr hx, hfx⟩

theorem diffLoop_toEmbed (ex : ExistingMap) (ncs : List Chunk) :
    ∀ te td, (diffLoop ex ncs te td).1 =
      te ++ ncs.filter (fun c => (mapLookup ex c.contentHash).isNone) := by
  induction ncs with
  | nil => intro te td; simp [diffLoop]
  | cons nc rest ih =>
    intro te td
    cases h : mapLookup ex nc.contentHash with
    | some v =>
      rw [diffLoop]
      simp only [h, Option.isSome_some, if_pos]
      rw [ih, List.filter_cons_of_neg (by simp [h])]
    | none =>
      rw [diffLoop]
      simp only [h, Option.isSome_none, Bool.false_eq_true, if_false, ite_false]
      rw [ih, List.filter_cons_of_pos (by simp [h])]
      simp

theorem diffLoop_toDelete (ex : ExistingMap) (ncs : List Chunk) :
    ∀ te td, (diffLoop ex ncs te td).2 =
      td.filter (fun p =>
        !(ncs.any (fun nc =>
          nc.contentHash == p.1 && (mapLookup ex nc.contentHash).isSome))) := by
  induction ncs with
  | nil => intro te td; simp [diffLoop]
  | cons nc rest ih =>
    intro te td
    cases h : mapLookup ex nc.contentHash with
    | some v =>
      rw [diffLoop]
      simp only [h, Option.isSome_some, if_pos]
      rw [ih, mapDelete, List.filter_filter]
      apply List.filter_congr
      intro p _
      simp only [List.any_cons, h, Option.isSome_some, Bool.and_true, Bool.not_or]
      rw [show (p.1 == nc.contentHash) = (nc.contentHash == p.1) from BEq.comm,
        Bool.and_comm]
    | none =>
      rw [diffLoop]
      simp only [h, Option.isSome_none, Bool.false_eq_true, if_false, ite_false]
      rw [ih]
      apply List.filter_congr
      intro p _
      simp [List.any_cons, h]

theorem computeDiff_toEmbed (ex : ExistingMap) (ncs : List Chunk) :
    (computeDiff ex ncs).1 =
      ncs.filter (fun c => (mapLookup ex c.contentHash).isNone) := by
  rw [computeDiff, diffLoop_toEmbed]
  simp

theorem mapLookup_isSome_of_mem {ex : ExistingMap} {p : Str × EntChunk}
    (hp : p ∈ ex) : (mapLookup ex p.1).isSome := by
  rw [mapLookup]
  have h1 : (List.find? (fun q => q.1 == p.1) ex).isSome :=
    List.find?_isSome.mpr ⟨p, hp, BEq.refl⟩
  cases hf : List.find? (fun q => q.1 == p.1) ex with
  | none => rw [hf] at h1; simp at h1
  | some q => rfl

theorem any_congr_mem {α : Type} {l : List α} {f g : α → Bool}
    (h : ∀ x ∈ l, f x = g x) : l.any f = l.any g := by
  induction l with
  | nil => rfl
  | cons a l ih =>
    simp only [List.any_cons]
    rw [h a (List.mem_cons_self a l),
      ih (fun x hx => h x (List.mem_cons_of_mem a hx))]

theorem computeDiff_toDelete (ex : ExistingMap) (ncs : List Chunk) :
    (computeDiff ex ncs).2 =
      ex.filter (fun p => !(ncs.any (fun nc => nc.contentHash == p.1))) := by
  rw [computeDiff, diffLoop_toDelete]
  apply List.filter_congr
  intro p hp
  congr 1
  apply any_congr_mem
  intro nc _
  cases hpq : nc.contentHash == p.1
  · simp [hpq]
  · have hh : nc.contentHash = p.1 := eq_of_beq hpq
    rw [hh]
    simp [mapLookup_isSome_of_mem hp]

/-! ## Lemmas about the embedding worker pool -/

theorem collectLoop_ok {rs : List EmbeddingResult} (h : ∀ r ∈ rs, r.err = none) :
    ∀ acc : List Vec,
      collectLoop rs acc =
        .ok (rs.foldl (fun a r => a.set r.index r.vector) acc) := by
  induction rs with
  | nil => intro acc; rfl
  | cons r rs ih =>
    intro acc
    have hr : r.err = none := h r (List.mem_cons_self r rs)
    rw [collectLoop]
    simp only [hr, List.foldl_cons]
    exact ih (fun x hx => h x (List.mem_cons_of_mem r hx)) _

theorem collectLoop_err {rs : List EmbeddingResult}
    (h : ∃ r ∈ rs, r.err ≠ none) :
    ∀ acc : List Vec, ∃ e, collectLoop rs acc = .error e := by
  induction rs with
  | nil => simp at h
  | cons r rs ih =>
    intro acc
    cases hr : r.err with
    | some e =>
      refine ⟨e, ?_⟩
      rw [collectLoop, hr]
    | none =>
      obtain ⟨r1, hr1, hne⟩ := h
      have hr1' : r1 ∈ rs := by
        rcases List.mem_cons.mp hr1 with h1 | h1
        · subst h1; exact absurd hr hne
        · exact h1
      obtain ⟨e, he⟩ := ih ⟨r1, hr1', hne⟩ (acc.set r.index r.vector)
      refine ⟨e, ?_⟩
      rw [collectLoop, hr]
      exact he

theorem foldlSet_length (rs : List EmbeddingResult) :
    ∀ acc : List Vec,
      (rs.foldl (fun a r => a.set r.index r.vector) acc).length = acc.length := by
  induction rs with
  | nil => intro acc; rfl
  | cons r rs ih =>
    intro acc
    rw [List.foldl_cons, ih]
    exact List.length_set acc r.index r.vector

theorem foldlSet_getElem?_not_mem {rs : List EmbeddingResult} {i : Nat}
    (h : ∀ r ∈ rs, r.index ≠ i) :
    ∀ acc : List Vec,
      (rs.foldl (fun a r => a.set r.index r.vector) acc)[i]? = acc[i]? := by
  induction rs with
  | nil => intro acc; rfl
  | cons r rs ih =>
    intro acc
    rw [List.foldl_cons, ih (fun x hx => h x (List.mem_cons_of_mem r hx))]
    rw [List.getElem?_set]
    simp [h r (List.mem_cons_self r rs)]

theorem foldlSet_getElem?_mem {rs : List EmbeddingResult} {r : EmbeddingResult}
    (hnd : (rs.map (fun x => x.index)).Nodup) (hr : r ∈ rs) :
    ∀ acc : List Vec, r.index < acc.length →
      (rs.foldl (fun a x => a.set x.index x.vector) acc)[r.index]? = some r.vector := by
  induction rs with
  | nil => simp at hr
  | cons a rs ih =>
    intro acc hlen
    rw [List.foldl_cons]
    rcases List.mem_cons.mp hr with h1 | h1
    · subst h1
      have hnotin : ∀ x ∈ rs, x.index ≠ r.index := by
        intro x hx heq
        have hhead := (List.nodup_cons.mp hnd).1
        have hmem : x.index ∈ rs.map (fun y => y.index) :=
          List.mem_map_of_mem (fun y => y.index) hx
        rw [heq] at hmem
        exact hhead hmem
      rw [foldlSet_getElem?_not_mem hnotin, List.getElem?_set]
      simp [hlen]
    · have hnd2 : (rs.map (fun x => x.index)).Nodup := (List.nodup_cons.mp hnd).2
      exact ih hnd2 h1 _ (by rw [List.length_set]; exact hlen)

theorem mem_jobResultsFrom {embedFn : Str → Except Str Vec}
    {r : EmbeddingResult} {cs : List Chunk} :
    ∀ {i : Nat}, r ∈ jobResultsFrom embedFn i cs →
      ∃ c ∈ cs, ∃ j, r = workerResult embedFn j c := by
  induction cs with
  | nil => intro i h; simp [jobResultsFrom] at h
  | cons c cs ih =>
    intro i h
    rcases List.mem_cons.mp h with h1 | h1
    · exact ⟨c, List.mem_cons_self c cs, i, h1⟩
    · obtain ⟨c1, hc1, j, hj⟩ := ih h1
      exact ⟨c1, List.mem_cons_of_mem c hc1, j, hj⟩

theorem jobResultsFrom_getElem? {embedFn : Str → Except Str Vec}
    {cs : List Chunk} :
    ∀ {i j : Nat},
      (jobResultsFrom embedFn i cs)[j]? =
        (cs[j]?).map (fun c => workerResult embedFn (i + j) c) := by
  induction cs with
  | nil => intro i j; simp [jobResultsFrom]
  | cons c cs ih =>
    intro i j
    cases j with
    | zero => simp [jobResultsFrom]
    | succ j =>
      have h1 : (jobResultsFrom embedFn i (c :: cs))[j + 1]? =
          (jobResultsFrom embedFn (i + 1) cs)[j]? := by
        simp [jobResultsFrom]
      rw [h1, ih, List.getElem?_cons_succ]
      have h2 : i + 1 + j = i + (j + 1) := by omega
      rw [h2]

theorem jobResultsFrom_map_index (embedFn : Str → Except Str Vec)
    (cs : List Chunk) :
    ∀ i : Nat, (jobResultsFrom embedFn i cs).map (fun r => r.index) =
      List.range' i cs.length := by
  induction cs with
  | nil => intro i; rfl
  | cons c cs ih =>
    intro i
    show EmbeddingResult.index (workerResult embedFn i c) ::
        (jobResultsFrom embedFn (i + 1) cs).map (fun r => r.index) = _
    rw [ih (i + 1)]
    have hidx : EmbeddingResult.index (workerResult embedFn i c) = i := by
      rw [workerResult]
      cases embedFn c.content <;> rfl
    rw [hidx, List.length_cons, List.range'_succ]

theorem workerResult_err_none {embedFn : Str → Except Str Vec} {c : Chunk}
    {v : Vec} (h : embedFn c.content = .ok v) (j : Nat) :
    (workerResult embedFn j c).err = none ∧
      (workerResult embedFn j c).vector = v := by
  rw [workerResult, h]
  exact ⟨rfl, rfl⟩

/-! ## Lemmas about the store synchronizer -/

theorem syncDatabase_err_invariant (env : SyncEnv) (st : DBState) (meta : DocMeta)
    (ncs : List Chunk) (vecs : List Vec) (td : ExistingMap) :
    (syncDatabase env st meta ncs vecs td).2 = none ∨
      ((syncDatabase env st meta ncs vecs td).1.rows = st.rows ∧
       (syncDatabase env st meta ncs vecs td).1.nextId = st.nextId ∧
       (syncDatabase env st meta ncs vecs td).1.status = st.status) := by
  unfold syncDatabase
  dsimp only
  repeat' split
  all_goals first
    | exact Or.inl rfl
    | exact Or.inr ⟨rfl, rfl, rfl⟩

theorem insertLoop_some_spec (env : SyncEnv) (meta : DocMeta) (nid : Nat)
    (vecs : List Vec) :
    ∀ (cs : List Chunk) (i : Nat) (rs : List EntChunk) (ps : List QPoint),
      insertLoop env meta nid vecs i cs = some (rs, ps) →
      rs.length = cs.length ∧ ps.length = cs.length ∧
      rs.map (fun r => r.contentHash) = cs.map (fun c => c.contentHash) ∧
      rs.map (fun r => r.content) = cs.map (fun c => c.content) ∧
      rs.map (fun r => r.index) = List.range' i cs.length ∧
      ps.map (fun p => p.id) = rs.map (fun r => r.id) := by
  intro cs
  induction cs with
  | nil =>
    intro i rs ps h
    rw [insertLoop] at h
    injection h with h1
    injection h1 with h2 h3
    subst h2; subst h3
    simp
  | cons c cs ih =>
    intro i rs ps h
    rw [insertLoop] at h
    by_cases hok : env.insertOk i
    · rw [if_pos hok] at h
      cases hrec : insertLoop env meta nid vecs (i + 1) cs with
      | none => rw [hrec] at h; exact absurd h (by simp)
      | some pair =>
        obtain ⟨rs1, ps1⟩ := pair
        rw [hrec] at h
        injection h with h1
        injection h1 with h2 h3
        subst h2; subst h3
        obtain ⟨e1, e2, e3, e4, e5, e6⟩ := ih (i + 1) rs1 ps1 hrec
        refine ⟨by simp [e1], by simp [e2], ?_, ?_, ?_, ?_⟩
        · simp [mkRow, e3]
        · simp [mkRow, e4]
        · simp only [List.map_cons, e5, mkRow, List.length_cons, List.range'_succ]
        · simp [mkRow, mkPoint, e6]
    · rw [if_neg hok] at h
      exact absurd h (by simp)

theorem syncDatabase_ok_spec (env : SyncEnv) (st : DBState) (meta : DocMeta)
    (ncs : List Chunk) (vecs : List Vec) (td : ExistingMap) (st1 : DBState)
    (h : syncDatabase env st meta ncs vecs td = (st1, none)) :
    ∃ ins pts keptP,
      insertLoop env meta st.nextId vecs 0 ncs = some (ins, pts) ∧
      st1.rows =
        st.rows.filter
          (fun r => !((td.map (fun p => p.2.id)).contains r.id)) ++ ins ∧
      st1.points = keptP ++ pts ∧
      st1.nextId = st.nextId + ncs.length ∧
      st1.status = st.status := by
  rw [syncDatabase] at h
  simp only [] at h
  by_cases c1 : td.length > 0 ∧ env.qdrantDeleteOk = false
  · rw [if_pos c1] at h
    exact absurd (congrArg Prod.snd h) (by simp)
  rw [if_neg c1] at h
  by_cases c2 : env.txBeginOk = false
  · rw [if_pos c2] at h
    exact absurd (congrArg Prod.snd h) (by simp)
  rw [if_neg c2] at h
  by_cases c3 : (td.map (fun p => p.2.id)).length > 0 ∧ env.pgDeleteOk = false
  · rw [if_pos c3] at h
    exact absurd (congrArg Prod.snd h) (by simp)
  rw [if_neg c3] at h
  cases hins : insertLoop env meta st.nextId vecs 0 ncs with
  | none =>
    rw [hins] at h
    exact absurd (congrArg Prod.snd h) (by simp)
  | some pair =>
    obtain ⟨ins, pts⟩ := pair
    rw [hins] at h
    simp only [] at h
    by_cases c4 : pts.length > 0 ∧ env.upsertOk = false
    · rw [if_pos c4] at h
      exact absurd (congrArg Prod.snd h) (by simp)
    rw [if_neg c4] at h
    by_cases c5 : env.commitOk = false
    · rw [if_pos c5] at h
      exact absurd (congrArg Prod.snd h) (by simp)
    rw [if_neg c5] at h
    have hfst : _ = st1 := ((Prod.mk.injEq _ _ _ _).mp h).1
    by_cases hp : pts.length > 0
    · refine ⟨ins, pts,
        (if td.length > 0 then
            st.points.filter (fun p => !((td.map (fun q => q.2.id)).contains p.id))
          else st.points).filter
          (fun p => !((pts.map QPoint.id).contains p.id)),
        rfl, ?_, ?_, ?_, ?_⟩
      · rw [← hfst]
      · rw [← hfst]
        dsimp only
        rw [if_pos hp]
      · rw [← hfst]
      · rw [← hfst]
    · have hpe : pts = [] := List.length_eq_zero.mp (by omega)
      refine ⟨ins, pts,
        (if td.length > 0 then
            st.points.filter (fun p => !((td.map (fun q => q.2.id)).contains p.id))
          else st.points),
        rfl, ?_, ?_, ?_, ?_⟩
      · rw [← hfst]
      · rw [← hfst]
        dsimp only
        rw [if_neg hp, hpe, List.append_nil]
      · rw [← hfst]
      · rw [← hfst]

/-! ## Lemmas about ProcessDocument -/

theorem processDocument_outcomes (env : ProcEnv) (st : DBState) (meta : DocMeta)
    (ncs : List Chunk) :
    ((processDocument env st meta ncs).writes = [failedStatus] ∧
     (processDocument env st meta ncs).failedStage ≠ none ∧
     (processDocument env st meta ncs).state.status = failedStatus) ∨
    ((processDocument env st meta ncs).writes = [completedStatus] ∧
     (processDocument env st meta ncs).failedStage = none ∧
     (processDocument env st meta ncs).state.status = completedStatus) := by
  rw [processDocument]
  dsimp only
  repeat' split
  all_goals first
    | exact Or.inl ⟨rfl, by simp, rfl⟩
    | exact Or.inr ⟨rfl, rfl, rfl⟩

theorem processDocument_sync_failed (env : ProcEnv) (st : DBState) (meta : DocMeta)
    (ncs : List Chunk)
    (h : (processDocument env st meta ncs).failedStage = some Stage.sync) :
    (processDocument env st meta ncs).state.status = failedStatus ∧
    (processDocument env st meta ncs).state.rows = st.rows ∧
    (processDocument env st meta ncs).state.nextId = st.nextId := by
  by_cases c1 : env.fetchOk = false
  · have heq : processDocument env st meta ncs =
        ⟨{ st with status := failedStatus }, [failedStatus], some Stage.fetch⟩ := by
      rw [processDocument, if_pos c1]
    rw [heq] at h
    simp at h
  by_cases c2 : (computeDiff (buildExisting st.rows) ncs).1.length > 0 ∨
      (computeDiff (buildExisting st.rows) ncs).2.length > 0
  · cases hemb : (if (computeDiff (buildExisting st.rows) ncs).1.length > 0 then
        embedChunks env.embedFn (computeDiff (buildExisting st.rows) ncs).1 env.arrival
      else Except.ok []) with
    | error e =>
      have heq : processDocument env st meta ncs =
          ⟨{ st with status := failedStatus }, [failedStatus], some Stage.embed⟩ := by
        rw [processDocument, if_neg c1]
        dsimp only
        rw [if_pos c2, hemb]
      rw [heq] at h
      simp at h
    | ok vectors =>
      rcases hsync : syncDatabase env.syncEnv st meta
          (computeDiff (buildExisting st.rows) ncs).1 vectors
          (computeDiff (buildExisting st.rows) ncs).2 with ⟨st1, err⟩
      cases err with
      | some e =>
        have heq : processDocument env st meta ncs =
            ⟨{ st1 with status := failedStatus }, [failedStatus], some Stage.sync⟩ := by
          rw [processDocument, if_neg c1]
          dsimp only
          rw [if_pos c2, hemb]
          dsimp only
          rw [hsync]
        rw [heq]
        rcases syncDatabase_err_invariant env.syncEnv st meta
            (computeDiff (buildExisting st.rows) ncs).1 vectors
            (computeDiff (buildExisting st.rows) ncs).2 with hnone | hinv
        · rw [hsync] at hnone; simp at hnone
        · refine ⟨rfl, ?_, ?_⟩
          · have h1 := hinv.1; rw [hsync] at h1; exact h1
          · have h2 := hinv.2.1; rw [hsync] at h2; exact h2
      | none =>
        have heq : processDocument env st meta ncs =
            ⟨{ st1 with status := completedStatus }, [completedStatus], none⟩ := by
          rw [processDocument, if_neg c1]
          dsimp only
          rw [if_pos c2, hemb]
          dsimp only
          rw [hsync]
        rw [heq] at h
        simp at h
  · have heq : processDocument env st meta ncs =
        ⟨{ st with status := completedStatus }, [completedStatus], none⟩ := by
      rw [processDocument, if_neg c1]
      dsimp only
      rw [if_neg c2]
    rw [heq] at h
    simp at h

theorem workerResult_mem_jobResultsFrom {embedFn : Str → Except Str Vec}
    {c : Chunk} {cs : List Chunk} (hc : c ∈ cs) :
    ∀ i : Nat, ∃ j, workerResult embedFn j c ∈ jobResultsFrom embedFn i cs := by
  induction cs with
  | nil => simp at hc
  | cons a cs ih =>
    intro i
    rcases List.mem_cons.mp hc with h1 | h1
    · subst h1
      exact ⟨i, List.mem_cons_self _ _⟩
    · obtain ⟨j, hj⟩ := ih h1 (i + 1)
      exact ⟨j, List.mem_cons_of_mem _ hj⟩

/-! ## Claim theorems -/

/-- C3: for every prior chunk set and every pair of new chunk sequences that
    are permutations of each other, the diff engine produces equal to-embed
    and to-delete classifications as sets (the to-embed lists are permutations
    of one another and the to-delete maps are equal), and membership in either
    classification depends only on content hashes, never on ordinal
    position. -/
theorem c3_diff_perm_invariant (ex : ExistingMap) (ncs ncs2 : List Chunk)
    (hperm : ncs.Perm ncs2) :
    (computeDiff ex ncs).1.Perm (computeDiff ex ncs2).1 ∧
    (computeDiff ex ncs).2 = (computeDiff ex ncs2).2 ∧
    (∀ c, c ∈ (computeDiff ex ncs).1 ↔
      c ∈ ncs ∧ mapLookup ex c.contentHash = none) ∧
    (∀ p, p ∈ (computeDiff ex ncs).2 ↔
      p ∈ ex ∧ ¬ ∃ nc ∈ ncs, nc.contentHash = p.1) := by
  refine ⟨?_, ?_, ?_, ?_⟩
  · rw [computeDiff_toEmbed, computeDiff_toEmbed]
    exact hperm.filter _
  · rw [computeDiff_toDelete, computeDiff_toDelete]
    apply List.filter_congr
    intro p _
    congr 1
    exact perm_any hperm
  · intro c
    rw [computeDiff_toEmbed]
    simp [List.mem_filter, Option.isNone_iff_eq_none]
  · intro p
    rw [computeDiff_toDelete]
    simp [List.mem_filter, List.any_eq_true]

/-- C3 witness: a two-chunk reordering against a one-row prior set. -/
theorem c3_witness :
    ([⟨"a".data, "ha".data, none⟩, ⟨"b".data, "hb".data, none⟩] : List Chunk).Perm
      [⟨"b".data, "hb".data, none⟩, ⟨"a".data, "ha".data, none⟩] ∧
    ((computeDiff [("ha".data, ⟨1, 0, "a".data, "ha".data⟩)]
        [⟨"a".data, "ha".data, none⟩, ⟨"b".data, "hb".data, none⟩]).1.Perm
      (computeDiff [("ha".data, ⟨1, 0, "a".data, "ha".data⟩)]
        [⟨"b".data, "hb".data, none⟩, ⟨"a".data, "ha".data, none⟩]).1 ∧
     (computeDiff [("ha".data, ⟨1, 0, "a".data, "ha".data⟩)]
        [⟨"a".data, "ha".data, none⟩, ⟨"b".data, "hb".data, none⟩]).2 =
      (computeDiff [("ha".data, ⟨1, 0, "a".data, "ha".data⟩)]
        [⟨"b".data, "hb".data, none⟩, ⟨"a".data, "ha".data, none⟩]).2 ∧
     (∀ c, c ∈ (computeDiff [("ha".data, ⟨1, 0, "a".data, "ha".data⟩)]
        [⟨"a".data, "ha".data, none⟩, ⟨"b".data, "hb".data, none⟩]).1 ↔
       c ∈ [⟨"a".data, "ha".data, none⟩, ⟨"b".data, "hb".data, none⟩] ∧
       mapLookup [("ha".data, ⟨1, 0, "a".data, "ha".data⟩)] c.contentHash = none) ∧
     (∀ p, p ∈ (computeDiff [("ha".data, ⟨1, 0, "a".data, "ha".data⟩)]
        [⟨"a".data, "ha".data, none⟩, ⟨"b".data, "hb".data, none⟩]).2 ↔
       p ∈ [("ha".data, ⟨1, 0, "a".data, "ha".data⟩)] ∧
       ¬ ∃ nc ∈ ([⟨"a".data, "ha".data, none⟩, ⟨"b".data, "hb".data, none⟩] : List Chunk),
         nc.contentHash = p.1)) :=
  ⟨by decide, c3_diff_perm_invariant _ _ _ (by decide)⟩

/-- C4: if every embedding call of a batch succeeds, the pool returns a
    vector array of the same length as the input whose entry at index i is
    exactly the embedding of the chunk at input index i, for every arrival
    order of the worker results. -/
theorem c4_pool_order (embedFn : Str → Except Str Vec) (chunks : List Chunk)
    (arrival : List EmbeddingResult)
    (harr : arrival.Perm (jobResults embedFn chunks))
    (hok : ∀ c ∈ chunks, ∃ v, embedFn c.content = .ok v) :
    ∃ vs, embedChunks embedFn chunks arrival = .ok vs ∧
      vs.length = chunks.length ∧
      ∀ (i : Nat) (c : Chunk), chunks[i]? = some c →
        vs[i]? = (embedFn c.content).toOption := by
  by_cases hz : chunks.length = 0
  · have hchunks : chunks = [] := List.length_eq_zero.mp hz
    subst hchunks
    refine ⟨[], by rw [embedChunks]; simp, rfl, ?_⟩
    intro i c hc
    simp at hc
  · have herr : ∀ r ∈ arrival, r.err = none := by
      intro r hr
      have hr2 : r ∈ jobResults embedFn chunks := harr.mem_iff.mp hr
      obtain ⟨c, hc, j, hj⟩ := mem_jobResultsFrom hr2
      obtain ⟨v, hv⟩ := hok c hc
      rw [hj]
      exact (workerResult_err_none hv j).1
    rw [embedChunks, if_neg hz, collectLoop_ok herr]
    refine ⟨_, rfl, ?_, ?_⟩
    · rw [foldlSet_length, List.length_replicate]
    · intro i c hc
      have hi : i < chunks.length := by
        by_contra hcon
        rw [List.getElem?_eq_none (by omega)] at hc
        exact absurd hc (by simp)
      obtain ⟨v, hv⟩ := hok c (List.getElem?_mem hc)
      have hmemJ : workerResult embedFn i c ∈ jobResults embedFn chunks := by
        have hje := @jobResultsFrom_getElem? embedFn chunks 0 i
        rw [hc] at hje
        simp only [Nat.zero_add, Option.map_some'] at hje
        exact List.getElem?_mem hje
      have hmemA : workerResult embedFn i c ∈ arrival := harr.mem_iff.mpr hmemJ
      have hnodup : (arrival.map (fun r => r.index)).Nodup := by
        have h1 : (arrival.map (fun r => r.index)).Perm
            ((jobResults embedFn chunks).map (fun r => r.index)) := harr.map _
        rw [jobResults, jobResultsFrom_map_index] at h1
        exact h1.nodup_iff.mpr (List.nodup_range' 0 chunks.length)
      have hidx : (workerResult embedFn i c).index = i := by
        rw [workerResult]
        cases embedFn c.content <;> rfl
      have hlt : (workerResult embedFn i c).index <
          (List.replicate chunks.length ([] : Vec)).length := by
        rw [List.length_replicate, hidx]
        exact hi
      have hget := foldlSet_getElem?_mem hnodup hmemA
        (List.replicate chunks.length []) hlt
      rw [hidx] at hget
      rw [hget, (workerResult_err_none hv i).2, hv]
      rfl

/-- C4 witness: a two-chunk batch whose results arrive in reversed order. -/
theorem c4_witness :
    ([⟨1, [5], none⟩, ⟨0, [14], none⟩] : List EmbeddingResult).Perm
      (jobResults (fun s => .ok [s.length])
        [⟨"hello hello hi".data, "h1".data, none⟩, ⟨"world".data, "h2".data, none⟩]) ∧
    (∀ c ∈ ([⟨"hello hello hi".data, "h1".data, none⟩,
        ⟨"world".data, "h2".data, none⟩] : List Chunk),
      ∃ v, (fun (s : Str) => Except.ok (ε := Str) [(s.length : Int)]) c.content = .ok v) ∧
    ∃ vs, embedChunks (fun s => .ok [s.length])
        [⟨"hello hello hi".data, "h1".data, none⟩, ⟨"world".data, "h2".data, none⟩]
        [⟨1, [5], none⟩, ⟨0, [14], none⟩] = .ok vs ∧
      vs.length = ([⟨"hello hello hi".data, "h1".data, none⟩,
        ⟨"world".data, "h2".data, none⟩] : List Chunk).length ∧
      ∀ (i : Nat) (c : Chunk), ([⟨"hello hello hi".data, "h1".data, none⟩,
          ⟨"world".data, "h2".data, none⟩] : List Chunk)[i]? = some c →
        vs[i]? = ((fun (s : Str) => Except.ok (ε := Str) [(s.length : Int)]) c.content).toOption :=
  ⟨by decide, by intro c hc; exact ⟨[(c.content.length : Int)], rfl⟩,
   c4_pool_order (fun s => .ok [s.length]) _ _ (by decide)
     (by intro c hc; exact ⟨[(c.content.length : Int)], rfl⟩)⟩

/-- C5: if the embedding call fails for at least one chunk of a batch, the
    pool returns an error (no vector array is returned as valid), for every
    arrival order of the worker results. -/
theorem c5_pool_fail_fast (embedFn : Str → Except Str Vec) (chunks : List Chunk)
    (arrival : List EmbeddingResult)
    (harr : arrival.Perm (jobResults embedFn chunks))
    (hfail : ∃ c ∈ chunks, ∃ e, embedFn c.content = .error e) :
    ∃ e, embedChunks embedFn chunks arrival = .error e := by
  obtain ⟨c, hc, e0, he0⟩ := hfail
  have hz : ¬ (chunks.length = 0) := by
    intro h0
    rw [List.length_eq_zero.mp h0] at hc
    simp at hc
  rw [embedChunks, if_neg hz]
  apply collectLoop_err
  obtain ⟨j, hj⟩ := workerResult_mem_jobResultsFrom hc 0
  rw [← jobResults] at hj
  refine ⟨workerResult embedFn j c, harr.mem_iff.mpr hj, ?_⟩
  rw [workerResult, he0]
  simp

/-- C5 witness: a two-chunk batch whose second chunk fails to embed. -/
theorem c5_witness :
    ([⟨1, [], some "boom".data⟩, ⟨0, [5], none⟩] : List EmbeddingResult).Perm
      (jobResults
        (fun s => if s.length = 5 then .ok [5] else .error "boom".data)
        [⟨"hello".data, "h1".data, none⟩, ⟨"hi".data, "h2".data, none⟩]) ∧
    (∃ c ∈ ([⟨"hello".data, "h1".data, none⟩, ⟨"hi".data, "h2".data, none⟩] : List Chunk),
      ∃ e, (fun (s : Str) => if s.length = 5 then Except.ok (ε := Str) [(5 : Int)]
        else .error "boom".data) c.content = .error e) ∧
    ∃ e, embedChunks
        (fun s => if s.length = 5 then .ok [5] else .error "boom".data)
        [⟨"hello".data, "h1".data, none⟩, ⟨"hi".data, "h2".data, none⟩]
        [⟨1, [], some "boom".data⟩, ⟨0, [5], none⟩] = .error e :=
  ⟨by decide, ⟨⟨"hi".data, "h2".data, none⟩, by decide, "boom".data, rfl⟩,
   c5_pool_fail_fast _ _ _ (by decide)
     ⟨⟨"hi".data, "h2".data, none⟩, by decide, "boom".data, rfl⟩⟩

/-- C6: whenever syncDatabase fails at any step, the relational store is left
    unchanged by that sync (rows and id generator as before, the transaction
    rolled back) while an error is returned, and a ProcessDocument run whose
    sync stage fails sets the document status to failed and stops with the
    relational store untouched. -/
theorem c6_sync_rollback (env : SyncEnv) (st : DBState) (meta : DocMeta)
    (ncs : List Chunk) (vecs : List Vec) (td : ExistingMap) (e : SyncStep)
    (hlen : vecs.length = ncs.length)
    (herr : (syncDatabase env st meta ncs vecs td).2 = some e) :
    ((syncDatabase env st meta ncs vecs td).1.rows = st.rows ∧
     (syncDatabase env st meta ncs vecs td).1.nextId = st.nextId) ∧
    (∀ (penv : ProcEnv) (pst : DBState) (pmeta : DocMeta) (pncs : List Chunk),
      (processDocument penv pst pmeta pncs).failedStage = some Stage.sync →
        (processDocument penv pst pmeta pncs).state.status = failedStatus ∧
        (processDocument penv pst pmeta pncs).state.rows = pst.rows ∧
        (processDocument penv pst pmeta pncs).state.nextId = pst.nextId) := by
  constructor
  · rcases syncDatabase_err_invariant env st meta ncs vecs td with hnone | hinv
    · exact absurd (herr.symm.trans hnone) (by simp)
    · exact ⟨hinv.1, hinv.2.1⟩
  · intro penv pst pmeta pncs hfail
    exact processDocument_sync_failed penv pst pmeta pncs hfail

/-- C6 witness: a sync whose transaction commit fails leaves the one prior
    row and the id generator untouched. -/
theorem c6_witness :
    ([[7]] : List Vec).length = ([⟨"b".data, "hb".data, none⟩] : List Chunk).length ∧
    (syncDatabase ⟨true, true, true, fun _ => true, true, false⟩
        ⟨[⟨1, 0, "a".data, "ha".data⟩], 5, "uploaded".data,
          [⟨1, [3], "u".data, 1, 1, 1⟩]⟩
        ⟨1, 1, "u".data⟩ [⟨"b".data, "hb".data, none⟩] [[7]]
        [("ha".data, ⟨1, 0, "a".data, "ha".data⟩)]).2 = some SyncStep.commitTx ∧
    ((syncDatabase ⟨true, true, true, fun _ => true, true, false⟩
        ⟨[⟨1, 0, "a".data, "ha".data⟩], 5, "uploaded".data,
          [⟨1, [3], "u".data, 1, 1, 1⟩]⟩
        ⟨1, 1, "u".data⟩ [⟨"b".data, "hb".data, none⟩] [[7]]
        [("ha".data, ⟨1, 0, "a".data, "ha".data⟩)]).1.rows =
      [⟨1, 0, "a".data, "ha".data⟩] ∧
     (syncDatabase ⟨true, true, true, fun _ => true, true, false⟩
        ⟨[⟨1, 0, "a".data, "ha".data⟩], 5, "uploaded".data,
          [⟨1, [3], "u".data, 1, 1, 1⟩]⟩
        ⟨1, 1, "u".data⟩ [⟨"b".data, "hb".data, none⟩] [[7]]
        [("ha".data, ⟨1, 0, "a".data, "ha".data⟩)]).1.nextId = 5) :=
  ⟨rfl, by decide,
   (c6_sync_rollback ⟨true, true, true, fun _ => true, true, false⟩
      ⟨[⟨1, 0, "a".data, "ha".data⟩], 5, "uploaded".data,
        [⟨1, [3], "u".data, 1, 1, 1⟩]⟩
      ⟨1, 1, "u".data⟩ [⟨"b".data, "hb".data, none⟩] [[7]]
      [("ha".data, ⟨1, 0, "a".data, "ha".data⟩)] SyncStep.commitTx
      rfl (by decide)).1⟩

/-- C9: DeleteDocumentVectors on a document whose chunk-id query returns the
    empty set succeeds (no error) and issues no vector-store delete call,
    regardless of whether the vector store would accept a delete. -/
theorem c9_delete_empty (qdrantDeleteOk : Bool) :
    deleteDocumentVectors (Except.ok []) qdrantDeleteOk = ([], none) := rfl

/-- C2 counterexample: a successful ProcessDocument run writes only
    `completed`; the status `processing` is never written, refuting the claim
    that every invocation sets `processing` before chunking and embedding. -/
theorem c2_counterexample :
    (processDocument
      ⟨true, fun _ => .ok [1], [⟨0, [1], none⟩],
        ⟨true, true, true, fun _ => true, true, true⟩⟩
      ⟨[], 1, "uploaded".data, []⟩ ⟨1, 1, "owner".data⟩
      [⟨"a".data, "ha".data, none⟩]).writes = [completedStatus] ∧
    processingStatus ∉ (processDocument
      ⟨true, fun _ => .ok [1], [⟨0, [1], none⟩],
        ⟨true, true, true, fun _ => true, true, true⟩⟩
      ⟨[], 1, "uploaded".data, []⟩ ⟨1, 1, "owner".data⟩
      [⟨"a".data, "ha".data, none⟩]).writes := by decide

/-- C2 (amended): every invocation of ProcessDocument performs exactly one
    status write, which is `completed` when no stage failed and `failed`
    otherwise, that write is the final status, and the core never writes
    `processing`. -/
theorem c2_status_writes (env : ProcEnv) (st : DBState) (meta : DocMeta)
    (ncs : List Chunk) :
    ((processDocument env st meta ncs).writes = [completedStatus] ∨
     (processDocument env st meta ncs).writes = [failedStatus]) ∧
    processingStatus ∉ (processDocument env st meta ncs).writes ∧
    ((processDocument env st meta ncs).failedStage = none ↔
      (processDocument env st meta ncs).writes = [completedStatus]) ∧
    (processDocument env st meta ncs).writes =
      [(processDocument env st meta ncs).state.status] := by
  rcases processDocument_outcomes env st meta ncs with ⟨h1, h2, h3⟩ | ⟨h1, h2, h3⟩
  · refine ⟨Or.inr h1, ?_, ?_, ?_⟩
    · rw [h1]; decide
    · constructor
      · intro hn; exact absurd hn h2
      · intro heq; rw [h1] at heq; exact absurd heq (by decide)
    · rw [h1, h3]
  · refine ⟨Or.inl h1, ?_, ?_, ?_⟩
    · rw [h1]; decide
    · constructor
      · intro _; exact h1
      · intro _; exact h2
    · rw [h1, h3]

/-- C2 witness: the amended statement evaluated at a concrete successful
    run. -/
theorem c2_witness :
    ((processDocument
      ⟨true, fun _ => .ok [2], [⟨0, [2], none⟩],
        ⟨true, true, true, fun _ => true, true, true⟩⟩
      ⟨[], 1, "uploaded".data, []⟩ ⟨2, 2, "owner".data⟩
      [⟨"c".data, "hc".data, none⟩]).writes = [completedStatus] ∨
     (processDocument
      ⟨true, fun _ => .ok [2], [⟨0, [2], none⟩],
        ⟨true, true, true, fun _ => true, true, true⟩⟩
      ⟨[], 1, "uploaded".data, []⟩ ⟨2, 2, "owner".data⟩
      [⟨"c".data, "hc".data, none⟩]).writes = [failedStatus]) ∧
    processingStatus ∉ (processDocument
      ⟨true, fun _ => .ok [2], [⟨0, [2], none⟩],
        ⟨true, true, true, fun _ => true, true, true⟩⟩
      ⟨[], 1, "uploaded".data, []⟩ ⟨2, 2, "owner".data⟩
      [⟨"c".data, "hc".data, none⟩]).writes ∧
    ((processDocument
      ⟨true, fun _ => .ok [2], [⟨0, [2], none⟩],
        ⟨true, true, true, fun _ => true, true, true⟩⟩
      ⟨[], 1, "uploaded".data, []⟩ ⟨2, 2, "owner".data⟩
      [⟨"c".data, "hc".data, none⟩]).failedStage = none ↔
     (processDocument
      ⟨true, fun _ => .ok [2], [⟨0, [2], none⟩],
        ⟨true, true, true, fun _ => true, true, true⟩⟩
      ⟨[], 1, "uploaded".data, []⟩ ⟨2, 2, "owner".data⟩
      [⟨"c".data, "hc".data, none⟩]).writes = [completedStatus]) ∧
    (processDocument
      ⟨true, fun _ => .ok [2], [⟨0, [2], none⟩],
        ⟨true, true, true, fun _ => true, true, true⟩⟩
      ⟨[], 1, "uploaded".data, []⟩ ⟨2, 2, "owner".data⟩
      [⟨"c".data, "hc".data, none⟩]).writes =
      [(processDocument
        ⟨true, fun _ => .ok [2], [⟨0, [2], none⟩],
          ⟨true, true, true, fun _ => true, true, true⟩⟩
        ⟨[], 1, "uploaded".data, []⟩ ⟨2, 2, "owner".data⟩
        [⟨"c".data, "hc".data, none⟩]).state.status] :=
  c2_status_writes _ _ _ _

/-- C1: the store synchronizer evaluated at the failing input. A document
    holds one kept chunk (hash ha); reprocessing with the new sequence
    [ha, hb] keeps the first chunk and inserts a row for the second, whose
    stored ordinal index is 0 (its position within the to-embed list) even
    though the chunk's position within the document's full current chunk
    sequence is 1. -/
theorem c1_ordinal_index_bug :
    (processDocument
      ⟨true, fun _ => .ok [7], [⟨0, [7], none⟩],
        ⟨true, true, true, fun _ => true, true, true⟩⟩
      ⟨[⟨1, 0, "a".data, "ha".data⟩], 5, "completed".data,
        [⟨1, [3], "u".data, 1, 1, 1⟩]⟩
      ⟨1, 1, "u".data⟩
      [⟨"a".data, "ha".data, none⟩, ⟨"b".data, "hb".data, none⟩]).failedStage =
      none ∧
    (processDocument
      ⟨true, fun _ => .ok [7], [⟨0, [7], none⟩],
        ⟨true, true, true, fun _ => true, true, true⟩⟩
      ⟨[⟨1, 0, "a".data, "ha".data⟩], 5, "completed".data,
        [⟨1, [3], "u".data, 1, 1, 1⟩]⟩
      ⟨1, 1, "u".data⟩
      [⟨"a".data, "ha".data, none⟩, ⟨"b".data, "hb".data, none⟩]).state.rows =
      [⟨1, 0, "a".data, "ha".data⟩, ⟨5, 0, "b".data, "hb".data⟩] ∧
    (([⟨"a".data, "ha".data, none⟩, ⟨"b".data, "hb".data, none⟩] : List Chunk).map
      (fun c => c.contentHash)).indexOf "hb".data = 1 := by decide

/-- C7 counterexample: a whitespace-only section has word count 0, which is
    at most the maximum, yet the splitter emits zero chunks rather than
    exactly one — refuting the claim for wordless sections. -/
theorem c7_counterexample :
    (fields [' ']).length ≤ maxWordsPerChunk ∧
    splitSectionByWords (fun s => s) [' '] [] = [] := by decide

/-- C7 (amended): for every flushed section with at least one word: if its
    word count is at most the maximum the splitter emits exactly one chunk
    (the trimmed section); otherwise the emitted chunks' word sequences are
    exactly the greedy in-order groups of `maxWordsPerChunk` words plus a
    final partial group, whose concatenation is the full word sequence; and
    every emitted chunk holds at most `maxWordsPerChunk` words. -/
theorem c7_word_split (hash : Str → Str) (hs : List Str) (sec : Str) :
    ((fields sec).length ≠ 0 → (fields sec).length ≤ maxWordsPerChunk →
      splitSectionByWords hash sec hs =
        [⟨trimSpace sec, hash (trimSpace sec), some (joinWith headingSep hs)⟩]) ∧
    ((fields sec).length > maxWordsPerChunk →
      ((splitSectionByWords hash sec hs).map (fun c => fields c.content) =
          groupWords (fields sec) ∧
        (groupWords (fields sec)).flatten = fields sec)) ∧
    (∀ c ∈ splitSectionByWords hash sec hs,
      (fields c.content).length ≤ maxWordsPerChunk) := by
  refine ⟨splitSectionByWords_small hash hs sec, ?_, ?_⟩
  · intro hgt
    constructor
    · rw [splitSectionByWords_large hash hs sec hgt, List.map_map]
      have hcong : ∀ g ∈ groupWords (fields sec),
          ((fun c => fields c.content) ∘
            chunkOfGroup hash (some (joinWith headingSep hs))) g = id g := by
        intro g hg
        obtain ⟨hgne, _, hgsub⟩ := groupWords_mem hg
        exact fields_chunkOfGroup _ _ hgne (fun w hw => fields_sound (hgsub w hw))
      rw [List.map_congr_left hcong, List.map_id]
    · exact groupWords_flatten (fields sec)
  · intro c hc
    exact (fields_mem_splitSection hc).2

/-- C7 witness: the amended statement exercised on a concrete two-word
    section. -/
theorem c7_witness :
    (fields "hello world".data).length ≠ 0 ∧
    (fields "hello world".data).length ≤ maxWordsPerChunk ∧
    splitSectionByWords (fun s => s) "hello world".data [] =
      [⟨trimSpace "hello world".data, trimSpace "hello world".data,
        some (joinWith headingSep [])⟩] ∧
    (∀ c ∈ splitSectionByWords (fun s => s) "hello world".data [],
      (fields c.content).length ≤ maxWordsPerChunk) :=
  ⟨by decide, by decide,
   (c7_word_split (fun s => s) [] "hello world".data).1 (by decide) (by decide),
   (c7_word_split (fun s => s) [] "hello world".data).2.2⟩

theorem mem_chunkMarkdownLoop {hash : Str → Str} {c : Chunk} :
    ∀ (bs : List Block) (hs : List Str) (buf : Str),
      c ∈ chunkMarkdownLoop hash bs hs buf →
      ∃ sec hs2, c ∈ splitSectionByWords hash sec hs2 := by
  intro bs
  induction bs with
  | nil =>
    intro hs buf h
    simp only [chunkMarkdownLoop] at h
    by_cases hb : buf.length > 0
    · rw [if_pos hb] at h
      exact ⟨buf, hs, h⟩
    · rw [if_neg hb] at h
      simp at h
  | cons b bs ih =>
    intro hs buf h
    simp only [chunkMarkdownLoop] at h
    cases hh : b.heading2 with
    | some t =>
      rw [hh] at h
      dsimp only at h
      rcases List.mem_append.mp h with h1 | h1
      · by_cases hb : buf.length > 0
        · rw [if_pos hb] at h1
          exact ⟨buf, hs, h1⟩
        · rw [if_neg hb] at h1
          simp at h1
      · exact ih [t] (appendBlock [] b) h1
    | none =>
      rw [hh] at h
      dsimp only at h
      exact ih hs (appendBlock buf b) h

/-- C8 counterexample: the fallback strategy on whitespace-only content
    produces one chunk whose trimmed content is empty, refuting the claim
    that every chunk of either strategy has non-empty trimmed content. -/
theorem c8_counterexample :
    chunkCodeFile (fun s => s) [' '] = [⟨[], [], none⟩] ∧
    ∀ c ∈ chunkCodeFile (fun s => s) [' '], trimSpace c.content = [] := by decide

/-- C8 (amended): every chunk produced by the structure-aware strategy has a
    non-empty trimmed content string; the fallback strategy emits exactly one
    chunk whose content is the trimmed input — which is empty when the input
    is empty or whitespace-only after trimming. -/
theorem c8_nonempty_chunks (hash : Str → Str) (blocks : List Block)
    (content : Str) :
    (∀ c ∈ chunkMarkdown hash blocks, trimSpace c.content ≠ []) ∧
    chunkCodeFile hash content =
      [⟨trimSpace content, hash (trimSpace content), none⟩] := by
  constructor
  · intro c hc
    obtain ⟨sec, hs2, hmem⟩ := mem_chunkMarkdownLoop blocks [] [] hc
    exact trimSpace_ne_nil_of_fields (fields_mem_splitSection hmem).1
  · rfl

/-- C8 witness: the amended statement at a one-block markdown document and a
    concrete chunk of its output. -/
theorem c8_witness :
    (⟨"hi there".data, "hi there".data, some []⟩ : Chunk) ∈
      chunkMarkdown (fun s => s) [⟨none, some "hi there".data⟩] ∧
    trimSpace (Chunk.content ⟨"hi there".data, "hi there".data, some []⟩) ≠ [] :=
  ⟨by decide,
   (c8_nonempty_chunks (fun s => s) [⟨none, some "hi there".data⟩] [' ']).1
     ⟨"hi there".data, "hi there".data, some []⟩ (by decide)⟩

/-- C10: when the new chunk sequence contains k > 1 chunks with the same
    content hash h absent from the prior set, all k occurrences are appended
    to to-embed, and a successful sync inserts one chunk row per occurrence
    (k rows carrying hash h) and one vector point per inserted row —
    duplicates are never deduplicated by hash within one document. -/
theorem c10_duplicates (ex : ExistingMap) (ncs : List Chunk) (h : Str) (k : Nat)
    (env : SyncEnv) (st : DBState) (meta : DocMeta) (vecs : List Vec)
    (st1 : DBState)
    (hlook : mapLookup ex h = none)
    (hk : ncs.countP (fun c => c.contentHash == h) = k)
    (hk1 : 1 < k)
    (hsync : syncDatabase env st meta (computeDiff ex ncs).1 vecs
      (computeDiff ex ncs).2 = (st1, none)) :
    (computeDiff ex ncs).1.countP (fun c => c.contentHash == h) = k ∧
    ∃ ins pts,
      insertLoop env meta st.nextId vecs 0 (computeDiff ex ncs).1 =
        some (ins, pts) ∧
      st1.rows = st.rows.filter
        (fun r => !(((computeDiff ex ncs).2.map (fun p => p.2.id)).contains r.id))
        ++ ins ∧
      (∃ keptP, st1.points = keptP ++ pts) ∧
      ins.countP (fun r => r.contentHash == h) = k ∧
      pts.length = (computeDiff ex ncs).1.length ∧
      pts.map (fun p => p.id) = ins.map (fun r => r.id) := by
  have hembed : (computeDiff ex ncs).1.countP (fun c => c.contentHash == h) = k := by
    rw [computeDiff_toEmbed, List.countP_filter]
    rw [← hk]
    apply List.countP_congr
    intro c _
    cases hch : c.contentHash == h
    · simp
    · have hcc : c.contentHash = h := eq_of_beq hch
      rw [hcc, hlook]
      simp
  refine ⟨hembed, ?_⟩
  obtain ⟨ins, pts, keptP, hinsert, hrows, hpoints, _, _⟩ :=
    syncDatabase_ok_spec env st meta (computeDiff ex ncs).1 vecs
      (computeDiff ex ncs).2 st1 hsync
  obtain ⟨hlen1, hlen2, hhash, _, _, hids⟩ :=
    insertLoop_some_spec env meta st.nextId vecs (computeDiff ex ncs).1 0
      ins pts hinsert
  refine ⟨ins, pts, hinsert, hrows, ⟨keptP, hpoints⟩, ?_, hlen2, hids⟩
  have h1 : ins.countP (fun r => r.contentHash == h) =
      (ins.map (fun r => r.contentHash)).countP (fun x => x == h) := by
    rw [List.countP_map]
    rfl
  have h2 : (computeDiff ex ncs).1.countP (fun c => c.contentHash == h) =
      ((computeDiff ex ncs).1.map (fun c => c.contentHash)).countP
        (fun x => x == h) := by
    rw [List.countP_map]
    rfl
  rw [h1, hhash, ← h2, hembed]

/-- C10 witness: two identical chunks (hash hb) absent from an empty prior
    set are both embedded and yield two separate rows and two separate
    points. -/
theorem c10_witness :
    mapLookup [] "hb".data = none ∧
    ([⟨"b".data, "hb".data, none⟩, ⟨"b".data, "hb".data, none⟩] : List Chunk).countP
      (fun c => c.contentHash == "hb".data) = 2 ∧
    (1 : Nat) < 2 ∧
    syncDatabase ⟨true, true, true, fun _ => true, true, true⟩
      ⟨[], 0, "uploaded".data, []⟩ ⟨1, 1, "u".data⟩
      (computeDiff [] [⟨"b".data, "hb".data, none⟩, ⟨"b".data, "hb".data, none⟩]).1
      [[1], [2]]
      (computeDiff [] [⟨"b".data, "hb".data, none⟩, ⟨"b".data, "hb".data, none⟩]).2 =
      (⟨[⟨0, 0, "b".data, "hb".data⟩, ⟨1, 1, "b".data, "hb".data⟩], 2,
        "uploaded".data,
        [⟨0, [1], "u".data, 1, 1, 0⟩, ⟨1, [2], "u".data, 1, 1, 1⟩]⟩, none) ∧
    ((computeDiff [] [⟨"b".data, "hb".data, none⟩,
        ⟨"b".data, "hb".data, none⟩]).1.countP
      (fun c => c.contentHash == "hb".data) = 2 ∧
     ∃ ins pts,
       insertLoop ⟨true, true, true, fun _ => true, true, true⟩ ⟨1, 1, "u".data⟩
         0 [[1], [2]] 0
         (computeDiff [] [⟨"b".data, "hb".data, none⟩,
           ⟨"b".data, "hb".data, none⟩]).1 = some (ins, pts) ∧
       (⟨[⟨0, 0, "b".data, "hb".data⟩, ⟨1, 1, "b".data, "hb".data⟩], 2,
         "uploaded".data,
         [⟨0, [1], "u".data, 1, 1, 0⟩,
          ⟨1, [2], "u".data, 1, 1, 1⟩]⟩ : DBState).rows =
         ([] : List EntChunk).filter
           (fun r => !(((computeDiff [] [⟨"b".data, "hb".data, none⟩,
             ⟨"b".data, "hb".data, none⟩]).2.map
               (fun p => p.2.id)).contains r.id)) ++ ins ∧
       (∃ keptP, (⟨[⟨0, 0, "b".data, "hb".data⟩, ⟨1, 1, "b".data, "hb".data⟩], 2,
         "uploaded".data,
         [⟨0, [1], "u".data, 1, 1, 0⟩,
          ⟨1, [2], "u".data, 1, 1, 1⟩]⟩ : DBState).points = keptP ++ pts) ∧
       ins.countP (fun r => r.contentHash == "hb".data) = 2 ∧
       pts.length = (computeDiff [] [⟨"b".data, "hb".data, none⟩,
         ⟨"b".data, "hb".data, none⟩]).1.length ∧
       pts.map (fun p => p.id) = ins.map (fun r => r.id)) :=
  ⟨by decide, by decide, by decide, by decide,
   c10_duplicates [] [⟨"b".data, "hb".data, none⟩, ⟨"b".data, "hb".data, none⟩]
     "hb".data 2 ⟨true, true, true, fun _ => true, true, true⟩
     ⟨[], 0, "uploaded".data, []⟩ ⟨1, 1, "u".data⟩ [[1], [2]]
     ⟨[⟨0, 0, "b".data, "hb".data⟩, ⟨1, 1, "b".data, "hb".data⟩], 2,
       "uploaded".data,
       [⟨0, [1], "u".data, 1, 1, 0⟩, ⟨1, [2], "u".data, 1, 1, 1⟩]⟩
     (by decide) (by decide) (by decide) (by decide)⟩
